import Mathlib

/-!
Verification of the Staircase Heartbeat Discrimination Task (S-HDT).

The Python sources are src/task_main/s_hdt.py (session orchestrator) and
src/task_main/s_hdt_functions.py (trial runner, input collection, post-task
questionnaire).  The adaptive staircase engine itself is psychopy.data.StairHandler,
an external library whose code is not part of this repository; it is modelled
here from the specification (doc comments starting with Modelled from the spec).
Everything else is translated from the Python sources.

Modelling conventions:
- Python numbers used as stimulus delays are modelled as Int (the configured
  staircase values are the integers 0..1000 in steps of 50).
- Participant/hardware interaction loops are driven by explicit scripts
  (functions from trial index to the observed event), so one Python loop
  iteration corresponds to one recursion step.
- File names (for the log-file suffix logic) are modelled as lists of character
  codes (Nat), with isalpha/lower restricted to ASCII letters.
-/

namespace SHDT

/-- Direction of the last staircase move (spec data model, field direction). -/
inductive Direction where
  | up
  | down
  | none
deriving DecidableEq, Repr

/-- Modelled from the spec: the Staircase data model of section 3 (the concrete
engine, psychopy.data.StairHandler, is an external library not in src/).
Configuration fields are immutable; state fields are mutated only by
applyResponse. -/
structure Staircase where
  name : String
  startValue : Int
  minValue : Int
  maxValue : Int
  stepSize : Int
  nUp : Nat
  nDown : Nat
  targetReversals : Nat
  maxTrials : Nat
  currentValue : Int
  direction : Direction
  consecutiveUp : Nat
  consecutiveDown : Nat
  reversalCount : Nat
  trialsRun : Nat
  responseHistory : List Int
  finished : Bool
deriving DecidableEq, Repr

/-- Modelled from the spec: a freshly constructed staircase (state RUNNING,
currentValue = startValue, direction NONE, counters zeroed). -/
def mkStaircase (name : String) (startValue minValue maxValue stepSize : Int)
    (nUp nDown targetReversals maxTrials : Nat) : Staircase :=
  { name := name
    startValue := startValue
    minValue := minValue
    maxValue := maxValue
    stepSize := stepSize
    nUp := nUp
    nDown := nDown
    targetReversals := targetReversals
    maxTrials := maxTrials
    currentValue := startValue
    direction := Direction.none
    consecutiveUp := 0
    consecutiveDown := 0
    reversalCount := 0
    trialsRun := 0
    responseHistory := []
    finished := false }

/-- Errors of the staircase engine (spec section 4.1, error conditions). -/
inductive StaircaseError where
  | invalidState
  | invalidResponse
deriving DecidableEq, Repr

/-- Clamp a value to the closed interval given by the two bounds. -/
def clamp (lo hi x : Int) : Int := max lo (min hi x)

/-- Modelled from the spec: step 3 of applyResponse.  The matching counter
reached its threshold: compute the new direction, count a reversal when the
direction flips from a previous (non-NONE) direction, move currentValue by
stepSize in the new direction clamped to the bounds, reset both counters. -/
def stepMove (s : Staircase) (d : Direction) : Staircase :=
  { s with
    reversalCount :=
      if s.direction ≠ Direction.none ∧ d ≠ s.direction then s.reversalCount + 1
      else s.reversalCount
    direction := d
    currentValue :=
      clamp s.minValue s.maxValue
        (if d = Direction.up then s.currentValue + s.stepSize
         else s.currentValue - s.stepSize)
    consecutiveUp := 0
    consecutiveDown := 0 }

/-- Modelled from the spec: applyResponse(code) of section 4.1.  The concrete
response codes are the orchestrator's: -1 is REPEAT ("same time"),
0 is the INCREASE signal ("before", move up), 1 is the DECREASE signal
("after", move down); any other code is rejected.  Calling after FINISHED
fails with invalidState. -/
def applyResponse (s : Staircase) (code : Int) : Except StaircaseError Staircase :=
  if s.finished then Except.error StaircaseError.invalidState
  else if code = -1 then Except.ok s
  else if code = 0 ∨ code = 1 then
    let s1 : Staircase :=
      { s with
        trialsRun := s.trialsRun + 1
        responseHistory := s.responseHistory ++ [code]
        consecutiveUp := if code = 0 then s.consecutiveUp + 1 else 0
        consecutiveDown := if code = 1 then s.consecutiveDown + 1 else 0 }
    let s2 : Staircase :=
      if code = 0 ∧ s1.nUp ≤ s1.consecutiveUp then stepMove s1 Direction.up
      else if code = 1 ∧ s1.nDown ≤ s1.consecutiveDown then stepMove s1 Direction.down
      else s1
    let s3 : Staircase :=
      if s2.maxTrials ≤ s2.trialsRun ∨ s2.targetReversals ≤ s2.reversalCount then
        { s2 with finished := true }
      else s2
    Except.ok s3
  else Except.error StaircaseError.invalidResponse

/-- Modelled from the spec: nextValue() returns currentValue unchanged while
RUNNING and is an error once FINISHED. -/
def nextValue (s : Staircase) : Except StaircaseError Int :=
  if s.finished then Except.error StaircaseError.invalidState
  else Except.ok s.currentValue

/-- The orchestrator's staircase.addResponse(code) call: the engine operation,
with the (unreachable under the orchestrator's guards) error case leaving the
state unchanged. -/
def addResponse (s : Staircase) (code : Int) : Staircase :=
  ((applyResponse s code).toOption).getD s

/-- Apply a whole sequence of response codes in order. -/
def applyList (s : Staircase) (codes : List Int) : Staircase :=
  codes.foldl addResponse s

/-- The button labels of run_staircase_trial and run_set_delay_trial
(s_hdt_functions.py line 333 and line 589). -/
def buttons : List String := ["before", "same time", "after"]

/-- The response codes of run_staircase_trial and run_set_delay_trial
(s_hdt_functions.py line 403 and line 659). -/
def responseCodes : List Int := [0, -1, 1]

/-- The response returned by run_staircase_trial / run_set_delay_trial for the
clicked button index: buttons[response] and [0, -1, 1][response].  Both trial
functions contain this identical mapping. -/
def codeResponse (response : Fin 3) : String × Int :=
  (buttons.get ⟨response.val, response.isLt⟩,
   responseCodes.get ⟨response.val, response.isLt⟩)

/-- One row logged to the TSV file for a training or staircase trial
(columns Staircase_name, Trial, Current Delay, Button, Response_code,
Confidence; s_hdt.py line 136). -/
structure TrialRecord where
  staircaseName : String
  trialIndex : Nat
  delay : Int
  button : String
  responseCode : Int
  confidence : Nat
deriving DecidableEq, Repr

/-- The inner per-staircase trial loop of run_s_hdt (s_hdt.py lines 298-333):
for trial in range(nTrials): check escape, check finished, take the next delay,
run the trial, skip addResponse when the response code is -1 and call it
otherwise, collect a confidence rating, log one record.  The participant's
button choices, the escape checks and the confidence entries are scripts
indexed by the loop variable; fuel is the number of remaining range iterations. -/
def runStaircaseTrials (resp : Nat → Fin 3) (escape : Nat → Bool) (confidence : Nat → Nat) :
    Staircase → Nat → Nat → Staircase × List TrialRecord
  | s, _, 0 => (s, [])
  | s, trial, fuel + 1 =>
    if escape trial then (s, [])
    else if s.finished then (s, [])
    else
      let currentDelay : Int := ((nextValue s).toOption).getD 0
      let response := codeResponse (resp trial)
      let s2 : Staircase := if response.2 = -1 then s else addResponse s response.2
      let record : TrialRecord :=
        { staircaseName := s.name
          trialIndex := trial + 1
          delay := currentDelay
          button := response.1
          responseCode := response.2
          confidence := confidence trial }
      let next := runStaircaseTrials resp escape confidence s2 (trial + 1) fuel
      (next.1, record :: next.2)

/-- The first staircase of staircase_set (s_hdt.py lines 170-177): startVal 400,
stepSizes 50, nReversals 3, nTrials 15, nUp 2, nDown 2, minVal 0, maxVal 1000. -/
def staircase400_1 : Staircase := mkStaircase "400_1" 400 0 1000 50 2 2 3 15

/-- The full staircase_set of s_hdt.py lines 170-202. -/
def staircaseSet : List Staircase :=
  [staircase400_1,
   mkStaircase "100_1" 100 0 1000 50 2 2 3 15,
   mkStaircase "400_2" 400 0 1000 50 2 2 3 15,
   mkStaircase "100_2" 100 0 1000 50 2 2 3 15]

/-- The outer staircase loop of run_s_hdt (s_hdt.py lines 294-351): each
staircase of staircase_set is run in order with its own trial loop.  The
scripts take the staircase index first.  Note that in the source an escape key
press only breaks out of the inner trial loop; the outer loop then continues
with the next staircase, which is exactly what mapping every staircase to its
own trial loop reproduces. -/
def runStaircasePhase (resp : Nat → Nat → Fin 3) (escape : Nat → Nat → Bool)
    (confidence : Nat → Nat → Nat) : List (Staircase × List TrialRecord) :=
  staircaseSet.enum.map (fun p =>
    runStaircaseTrials (resp p.1) (escape p.1) (confidence p.1) p.2 0 p.2.maxTrials)

/-- Once the engine is FINISHED, applyResponse fails and addResponse leaves the
state unchanged. -/
lemma addResponse_of_finished (s : Staircase) (code : Int) (h : s.finished = true) :
    addResponse s code = s := by
  simp [addResponse, applyResponse, h, Except.toOption]

/-- A REPEAT code (-1) leaves a running staircase unchanged. -/
lemma addResponse_repeat (s : Staircase) (h : s.finished = false) :
    addResponse s (-1) = s := by
  simp [addResponse, applyResponse, h, Except.toOption]

/-- An unrecognized code leaves the staircase unchanged through addResponse
(applyResponse fails with invalidResponse). -/
lemma addResponse_invalid (s : Staircase) (code : Int) (h : s.finished = false)
    (h1 : code ≠ -1) (h2 : ¬(code = 0 ∨ code = 1)) :
    addResponse s code = s := by
  simp [addResponse, applyResponse, h, h1, h2, Except.toOption]

/-- Field bookkeeping of a counted (non-repeat) response on a running
staircase: the trial counter goes up by one, the configuration fields are
untouched, and the finished flag is recomputed from the two caps. -/
lemma addResponse_facts (s : Staircase) (code : Int) (hf : s.finished = false)
    (hc : code = 0 ∨ code = 1) :
    (addResponse s code).trialsRun = s.trialsRun + 1 ∧
    (addResponse s code).maxTrials = s.maxTrials ∧
    (addResponse s code).targetReversals = s.targetReversals ∧
    (addResponse s code).finished =
      decide (s.maxTrials ≤ s.trialsRun + 1 ∨
        s.targetReversals ≤ (addResponse s code).reversalCount) := by
  rcases hc with hc | hc <;> subst hc <;>
    simp only [addResponse, applyResponse, hf] <;>
    norm_num <;>
    split <;> split <;>
    simp_all [stepMove, Except.toOption, Bool.or_eq_true, decide_eq_true_eq]

/-- The invariant relating the finished flag to the two termination caps. -/
def finishedInv (s : Staircase) : Prop :=
  s.finished = decide (s.maxTrials ≤ s.trialsRun ∨ s.targetReversals ≤ s.reversalCount)

/-- addResponse preserves the finished-flag invariant. -/
lemma addResponse_finishedInv (s : Staircase) (code : Int) (h : finishedInv s) :
    finishedInv (addResponse s code) := by
  by_cases hf : s.finished = true
  · rw [addResponse_of_finished s code hf]; exact h
  · replace hf : s.finished = false := by simpa using hf
    by_cases h1 : code = -1
    · subst h1; rw [addResponse_repeat s hf]; exact h
    · by_cases h0 : code = 0 ∨ code = 1
      · obtain ⟨f1, f2, f3, f4⟩ := addResponse_facts s code hf h0
        unfold finishedInv
        rw [f1, f2, f3, f4]
      · rw [addResponse_invalid s code hf h1 h0]; exact h

/-- Folding a code list through addResponse preserves the invariant. -/
lemma applyList_finishedInv (s : Staircase) (codes : List Int) (h : finishedInv s) :
    finishedInv (applyList s codes) := by
  induction codes generalizing s with
  | nil => exact h
  | cons c cs ih => exact ih _ (addResponse_finishedInv s c h)

/-- Once finished, any further sequence of codes leaves the flag true. -/
lemma applyList_finished_mono (s : Staircase) (codes : List Int) (h : s.finished = true) :
    (applyList s codes).finished = true := by
  induction codes generalizing s with
  | nil => exact h
  | cons c cs ih =>
    show (applyList (addResponse s c) cs).finished = true
    rw [addResponse_of_finished s c h]
    exact ih s h

/-- Claim C3: for every sequence of applied responses, the staircase's finished
flag is true exactly when trialsRun has reached maxTrials or reversalCount has
reached targetReversals (either cap alone suffices), and once true it never
becomes false again under any further operation.  The hypothesis states the
invariant for the starting state; it holds for any freshly constructed
staircase whose caps are positive (in particular every member of
staircase_set). -/
theorem c3_finished_iff_caps (s : Staircase) (codes : List Int)
    (hinv : s.finished =
      decide (s.maxTrials ≤ s.trialsRun ∨ s.targetReversals ≤ s.reversalCount)) :
    ((applyList s codes).finished = true ↔
      (applyList s codes).maxTrials ≤ (applyList s codes).trialsRun ∨
        (applyList s codes).targetReversals ≤ (applyList s codes).reversalCount) ∧
    (∀ more : List Int, (applyList s codes).finished = true →
      (applyList (applyList s codes) more).finished = true) := by
  constructor
  · have h := applyList_finishedInv s codes hinv
    rw [finishedInv] at h
    rw [h]
    exact decide_eq_true_iff
  · intro more h
    exact applyList_finished_mono _ more h

/-- Witness for C3 at the first configured staircase with four counted
responses. -/
theorem c3_witness :
    (((applyList staircase400_1 [0, 0, 1, 1]).finished = true ↔
      (applyList staircase400_1 [0, 0, 1, 1]).maxTrials ≤
          (applyList staircase400_1 [0, 0, 1, 1]).trialsRun ∨
        (applyList staircase400_1 [0, 0, 1, 1]).targetReversals ≤
          (applyList staircase400_1 [0, 0, 1, 1]).reversalCount) ∧
    (∀ more : List Int, (applyList staircase400_1 [0, 0, 1, 1]).finished = true →
      (applyList (applyList staircase400_1 [0, 0, 1, 1]) more).finished = true)) :=
  c3_finished_iff_caps staircase400_1 [0, 0, 1, 1] (by decide)

/-- Claim C1: a staircase trial whose response maps to REPEAT (button same
time, code -1) does not touch the staircase: the loop's continuation runs from
the unchanged state s (so addResponse is not called and no per-staircase trial
counter or any other engine field is incremented), while one record with the
presented delay and the collected confidence rating is still logged; and when
the next iteration of the same staircase runs, it presents the same delay
again. -/
theorem c1_repeat_trial_preserves_staircase (resp : Nat → Fin 3) (escape : Nat → Bool)
    (confidence : Nat → Nat) (s : Staircase) (trial fuel : Nat)
    (hesc : escape trial = false) (hfin : s.finished = false) (hresp : resp trial = 1) :
    (runStaircaseTrials resp escape confidence s trial (fuel + 1) =
      ((runStaircaseTrials resp escape confidence s (trial + 1) fuel).1,
        { staircaseName := s.name
          trialIndex := trial + 1
          delay := s.currentValue
          button := "same time"
          responseCode := -1
          confidence := confidence trial } ::
          (runStaircaseTrials resp escape confidence s (trial + 1) fuel).2)) ∧
    (∀ f, fuel = f + 1 → escape (trial + 1) = false →
      ((runStaircaseTrials resp escape confidence s trial (fuel + 1)).2.get? 1).map
          TrialRecord.delay = some s.currentValue) := by
  constructor
  · simp [runStaircaseTrials, hesc, hfin, hresp, codeResponse, nextValue,
      Except.toOption, buttons, responseCodes]
  · intro f hf hesc2
    subst hf
    simp [runStaircaseTrials, hesc, hfin, hresp, hesc2, codeResponse, nextValue,
      Except.toOption, buttons, responseCodes]

/-- Witness for C1: a repeated administration at the start of the first
configured staircase re-presents delay 400 on the following iteration. -/
theorem c1_witness :
    ((runStaircaseTrials (fun _ => (1 : Fin 3)) (fun _ => false) (fun _ => 7)
        staircase400_1 0 2).2.get? 1).map TrialRecord.delay = some 400 :=
  (c1_repeat_trial_preserves_staircase (fun _ => 1) (fun _ => false) (fun _ => 7)
    staircase400_1 0 2 rfl rfl rfl).2 1 rfl rfl

/-- Counterexample to C2 as stated: one interleaved REPEAT trial (the first
administration) followed by non-repeat responses that never produce a
reversal.  The per-staircase loop runs for trial in range(nTrials), so the
repeat consumes one of the 15 iterations: the phase ends for this staircase
after 15 administered trials of which only 14 are counted, and the staircase
never finishes. -/
theorem c2_counterexample :
    (runStaircaseTrials (fun t => if t = 0 then 1 else 0) (fun _ => false) (fun _ => 50)
        staircase400_1 0 staircase400_1.maxTrials).1.trialsRun = 14 ∧
    (runStaircaseTrials (fun t => if t = 0 then 1 else 0) (fun _ => false) (fun _ => 50)
        staircase400_1 0 staircase400_1.maxTrials).1.finished = false ∧
    (runStaircaseTrials (fun t => if t = 0 then 1 else 0) (fun _ => false) (fun _ => 50)
        staircase400_1 0 staircase400_1.maxTrials).2.length = 15 := by
  decide

/-- Case analysis helper for the three button indices. -/
lemma fin3_eq (r : Fin 3) : r = 0 ∨ r = 1 ∨ r = 2 := by
  revert r; decide

/-- Core induction for the amended C2: when no response is a repeat and no
escape occurs, every loop iteration counts exactly one trial, so a run that
stays under the reversal cap uses all its fuel and finishes by the trial cap. -/
lemma runStaircaseTrials_counts (resp : Nat → Fin 3) (escape : Nat → Bool)
    (confidence : Nat → Nat) (hesc : ∀ t, escape t = false) (hresp : ∀ t, resp t ≠ 1) :
    ∀ (fuel : Nat) (s : Staircase) (trial : Nat),
      s.trialsRun + fuel = s.maxTrials →
      s.finished = decide (s.maxTrials ≤ s.trialsRun ∨ s.targetReversals ≤ s.reversalCount) →
      (((runStaircaseTrials resp escape confidence s trial fuel).1.reversalCount <
          s.targetReversals →
        (runStaircaseTrials resp escape confidence s trial fuel).1.trialsRun = s.maxTrials ∧
        (runStaircaseTrials resp escape confidence s trial fuel).1.finished = true) ∧
      (runStaircaseTrials resp escape confidence s trial fuel).1.targetReversals =
        s.targetReversals) := by
  intro fuel
  induction fuel with
  | zero =>
    intro s trial hcount hinv
    refine ⟨fun _ => ⟨by simpa [runStaircaseTrials] using hcount, ?_⟩, rfl⟩
    simp only [runStaircaseTrials]
    rw [hinv]
    simp only [decide_eq_true_eq]
    left
    omega
  | succ fuel ih =>
    intro s trial hcount hinv
    have hesc' := hesc trial
    by_cases hf : s.finished = true
    · have hout : runStaircaseTrials resp escape confidence s trial (fuel + 1) = (s, []) := by
        simp [runStaircaseTrials, hesc', hf]
      rw [hout]
      dsimp only
      refine ⟨fun hrev => absurd hrev ?_, rfl⟩
      rw [hinv] at hf
      have hcaps := of_decide_eq_true hf
      omega
    · replace hf : s.finished = false := by simpa using hf
      have hne := hresp trial
      have hcode : (codeResponse (resp trial)).2 = 0 ∨ (codeResponse (resp trial)).2 = 1 := by
        rcases fin3_eq (resp trial) with h | h | h
        · left; rw [h]; rfl
        · exact absurd h hne
        · right; rw [h]; rfl
      have hns : ¬((codeResponse (resp trial)).2 = -1) := by
        rcases hcode with h | h <;> rw [h] <;> decide
      obtain ⟨f1, f2, f3, f4⟩ := addResponse_facts s _ hf hcode
      have hstep : (runStaircaseTrials resp escape confidence s trial (fuel + 1)).1 =
          (runStaircaseTrials resp escape confidence
            (addResponse s (codeResponse (resp trial)).2) (trial + 1) fuel).1 := by
        simp [runStaircaseTrials, hesc', hf, hns]
      have hcount' : (addResponse s (codeResponse (resp trial)).2).trialsRun + fuel =
          (addResponse s (codeResponse (resp trial)).2).maxTrials := by
        rw [f1, f2]; omega
      have hinv' : (addResponse s (codeResponse (resp trial)).2).finished =
          decide ((addResponse s (codeResponse (resp trial)).2).maxTrials ≤
              (addResponse s (codeResponse (resp trial)).2).trialsRun ∨
            (addResponse s (codeResponse (resp trial)).2).targetReversals ≤
              (addResponse s (codeResponse (resp trial)).2).reversalCount) := by
        rw [f4, f1, f2, f3]
      obtain ⟨hmain, htarg⟩ := ih (addResponse s (codeResponse (resp trial)).2) (trial + 1)
        hcount' hinv'
      rw [hstep]
      refine ⟨fun hrev => ?_, by rw [htarg, f3]⟩
      rw [← f3] at hrev
      obtain ⟨ha, hb⟩ := hmain hrev
      exact ⟨by rw [ha, f2], hb⟩

/-- Amended Claim C2: a staircase whose run never reaches targetReversals
reversals finishes after exactly maxTrials counted trials provided no REPEAT
responses occur (and no escape); interleaved REPEAT trials each consume one of
the at-most-maxTrials loop iterations, so with repeats the counted trials fall
short of maxTrials and the staircase does not finish (see the
counterexample). -/
theorem c2_amended_fifteen_counted (resp : Nat → Fin 3) (escape : Nat → Bool)
    (confidence : Nat → Nat) (s : Staircase)
    (hesc : ∀ t, escape t = false) (hresp : ∀ t, resp t ≠ 1)
    (h0 : s.trialsRun = 0) (hf : s.finished = false) (hmax : 0 < s.maxTrials)
    (hr0 : s.reversalCount < s.targetReversals)
    (hrev : (runStaircaseTrials resp escape confidence s 0 s.maxTrials).1.reversalCount <
      s.targetReversals) :
    (runStaircaseTrials resp escape confidence s 0 s.maxTrials).1.trialsRun = s.maxTrials ∧
    (runStaircaseTrials resp escape confidence s 0 s.maxTrials).1.finished = true := by
  have hinv : s.finished =
      decide (s.maxTrials ≤ s.trialsRun ∨ s.targetReversals ≤ s.reversalCount) := by
    rw [hf, h0]
    symm
    rw [decide_eq_false_iff_not]
    push_neg
    exact ⟨by omega, by omega⟩
  exact (runStaircaseTrials_counts resp escape confidence hesc hresp s.maxTrials s 0
    (by omega) hinv).1 hrev

/-- Witness for the amended C2: all-before responses on the first configured
staircase count exactly 15 trials and finish it. -/
theorem c2_witness :
    (runStaircaseTrials (fun _ => (0 : Fin 3)) (fun _ => false) (fun _ => 50)
        staircase400_1 0 staircase400_1.maxTrials).1.trialsRun = 15 ∧
    (runStaircaseTrials (fun _ => (0 : Fin 3)) (fun _ => false) (fun _ => 50)
        staircase400_1 0 staircase400_1.maxTrials).1.finished = true :=
  c2_amended_fifteen_counted (fun _ => 0) (fun _ => false) (fun _ => 50) staircase400_1
    (fun _ => rfl) (fun _ => by show (0 : Fin 3) ≠ 1; decide) rfl rfl (by decide)
    (by decide) (by decide)

/-- Claim C4 (failing input): the escape signal is observed at the check point
of the first trial of the first staircase (index 0); the code then closes the
log file and window and breaks out of that staircase's trial loop only -- the
outer loop continues, and every later staircase still administers its full 15
trials, so further trials are administered after the cancellation. -/
theorem c4_escape_continues_next_staircase :
    (runStaircasePhase (fun _ _ => 0) (fun i t => i == 0 && t == 0)
        (fun _ _ => 50)).map (fun p => p.2.length) = [0, 15, 15, 15] := by
  decide

/-- Claim C10: every value returned by a trial-running operation is a pair of a
label among before / same time / after and the corresponding code among
0 / -1 / 1, and code -1 is returned exactly for the label same time (the
sentinel the orchestrator's repeat test compares against). -/
theorem c10_response_mapping (r : Fin 3) :
    ((codeResponse r).1, (codeResponse r).2) ∈
        [("before", (0 : Int)), ("same time", -1), ("after", 1)] ∧
    ((codeResponse r).2 = -1 ↔ (codeResponse r).1 = "same time") ∧
    ((codeResponse r).2 = -1 ↔ r = 1) := by
  revert r; decide

/-- The two serial commands written by run_staircase_trial for a trial at the
given delay (s_hdt_functions.py lines 554-563): the DELAY line and then the
START line, both as utf-8 text. -/
def serialCommands (currentDelay : Int) : List String :=
  ["DELAY" ++ toString currentDelay ++ ";", "START;"]

/-- Python's str.strip(): remove leading and trailing whitespace.  Defined
over the character list so that it evaluates in the kernel. -/
def pyStrip (s : String) : String :=
  String.mk (((s.data.dropWhile Char.isWhitespace).reverse.dropWhile
    Char.isWhitespace).reverse)

/-- Outcome of the acknowledgment wait loop of run_staircase_trial. -/
inductive WaitOutcome where
  | ended
  | quitPressed
  | stillWaiting
deriving DecidableEq, Repr

/-- The acknowledgment wait loop of run_staircase_trial (s_hdt_functions.py
lines 567-582): read 6 bytes from the port, proceed when the stripped data
equals ENDED;, otherwise quit on an escape key press and poll again after a
short sleep.  The script gives, for each poll, the 6-byte read and whether
escape was pressed at that poll's check; an exhausted script means the loop is
still waiting. -/
def waitForEnded : List (String × Bool) → WaitOutcome
  | [] => WaitOutcome.stillWaiting
  | (readData, esc) :: rest =>
    if pyStrip readData = "ENDED;" then WaitOutcome.ended
    else if esc then WaitOutcome.quitPressed
    else waitForEnded rest

/-- Claim C5: the bytes written to the serial port for a trial are exactly the
DELAY line followed by START;, and the trial proceeds to response collection
exactly when some polled 6-byte read strips to the token ENDED; with every
earlier poll neither matching nor interrupted by escape. -/
theorem c5_serial_protocol (d : Int) (script : List (String × Bool)) :
    serialCommands d = ["DELAY" ++ toString d ++ ";", "START;"] ∧
    (waitForEnded script = WaitOutcome.ended ↔
      ∃ pre r e post, script = pre ++ (r, e) :: post ∧ pyStrip r = "ENDED;" ∧
        ∀ p ∈ pre, pyStrip p.1 ≠ "ENDED;" ∧ p.2 = false) := by
  refine ⟨rfl, ?_⟩
  induction script with
  | nil =>
    constructor
    · intro h
      exact absurd h (by simp [waitForEnded])
    · rintro ⟨pre, r, e, post, hs, -, -⟩
      exact absurd hs (by simp)
  | cons hd rest ih =>
    obtain ⟨rd, esc⟩ := hd
    constructor
    · intro h
      by_cases hr : pyStrip rd = "ENDED;"
      · exact ⟨[], rd, esc, rest, rfl, hr, by simp⟩
      · by_cases he : esc = true
        · exact absurd h (by simp [waitForEnded, hr, he])
        · replace he : esc = false := by simpa using he
          have h' : waitForEnded rest = WaitOutcome.ended := by
            simpa [waitForEnded, hr, he] using h
          obtain ⟨pre, r, e, post, hs, hrr, hpre⟩ := ih.mp h'
          refine ⟨(rd, esc) :: pre, r, e, post, by rw [hs]; rfl, hrr, ?_⟩
          intro p hp
          rcases List.mem_cons.mp hp with hp | hp
          · rw [hp]; exact ⟨hr, he⟩
          · exact hpre p hp
    · rintro ⟨pre, r, e, post, hs, hrr, hpre⟩
      cases pre with
      | nil =>
        simp only [List.nil_append, List.cons.injEq, Prod.mk.injEq] at hs
        obtain ⟨⟨h1, -⟩, -⟩ := hs
        rw [← h1] at hrr
        simp [waitForEnded, hrr]
      | cons p pre' =>
        obtain ⟨hp1, hp2⟩ := hpre p (by simp)
        simp only [List.cons_append, List.cons.injEq] at hs
        obtain ⟨hhd, hs'⟩ := hs
        subst hhd
        have hr : pyStrip rd ≠ "ENDED;" := hp1
        have he : esc = false := hp2
        rw [show waitForEnded ((rd, esc) :: rest) = waitForEnded rest by
          simp [waitForEnded, hr, he]]
        exact ih.mpr ⟨pre', r, e, post, hs', hrr, fun q hq => hpre q (by simp [hq])⟩

/-- Witness for C5: a first poll that reads the acknowledgment token ends the
wait immediately. -/
theorem c5_witness :
    serialCommands 400 = ["DELAY400;", "START;"] ∧
    waitForEnded [("ENDED;", false)] = WaitOutcome.ended :=
  ⟨(c5_serial_protocol 400 []).1,
   (c5_serial_protocol 400 [("ENDED;", false)]).2.mpr
     ⟨[], "ENDED;", false, [], rfl, by decide, by simp⟩⟩

/-- Key events that get_numeric_input waits for (s_hdt_functions.py lines
141-148): main-keyboard digits, numeric-keypad digits, backspace, return and
escape are the only keys in the keyList. -/
inductive NumKey where
  | digit (d : Fin 10)
  | numpad (d : Fin 10)
  | backspace
  | enter
  | escape
deriving DecidableEq, Repr

/-- Outcome of get_numeric_input on a finite key script. -/
inductive NumInputOutcome where
  | entered (value : Nat)
  | quitPressed
  | stillWaiting
deriving DecidableEq, Repr

/-- The integer value of the typed digit buffer, as Python's int() reads it
(most significant digit first). -/
def digitsValue (buf : List (Fin 10)) : Nat :=
  buf.foldl (fun acc d => 10 * acc + d.val) 0

/-- The input loop of get_numeric_input (s_hdt_functions.py lines 126-179).
The buffer holds the typed digits (only digit keys ever extend it, so
input_text.isdigit() is exactly buffer nonemptiness).  Return confirms only a
nonempty buffer whose value is at most 100; otherwise an error message is
shown and the loop keeps prompting.  Backspace drops the last character,
digits append while the buffer is shorter than 3 characters, escape quits. -/
def getNumericInput : List (Fin 10) → List NumKey → NumInputOutcome
  | _, [] => NumInputOutcome.stillWaiting
  | buf, key :: rest =>
    match key with
    | NumKey.enter =>
      if buf ≠ [] ∧ digitsValue buf ≤ 100 then NumInputOutcome.entered (digitsValue buf)
      else getNumericInput buf rest
    | NumKey.backspace => getNumericInput buf.dropLast rest
    | NumKey.digit d =>
      getNumericInput (if buf.length < 3 then buf ++ [d] else buf) rest
    | NumKey.numpad d =>
      getNumericInput (if buf.length < 3 then buf ++ [d] else buf) rest
    | NumKey.escape => NumInputOutcome.quitPressed

/-- Every entered value is at most 100 (it is a Nat, so at least 0). -/
lemma getNumericInput_le (buf : List (Fin 10)) (keys : List NumKey) (v : Nat)
    (h : getNumericInput buf keys = NumInputOutcome.entered v) : v ≤ 100 := by
  induction keys generalizing buf with
  | nil => exact absurd h (by simp [getNumericInput])
  | cons key rest ih =>
    cases key with
    | enter =>
      by_cases hc : buf ≠ [] ∧ digitsValue buf ≤ 100
      · have : NumInputOutcome.entered (digitsValue buf) = NumInputOutcome.entered v := by
          simpa [getNumericInput, hc] using h
        obtain hv : digitsValue buf = v := by simpa using this
        omega
      · exact ih buf (by simpa [getNumericInput, hc] using h)
    | backspace => exact ih buf.dropLast (by simpa [getNumericInput] using h)
    | digit d =>
      exact ih (if buf.length < 3 then buf ++ [d] else buf)
        (by simpa [getNumericInput] using h)
    | numpad d =>
      exact ih (if buf.length < 3 then buf ++ [d] else buf)
        (by simpa [getNumericInput] using h)
    | escape => exact absurd h (by simp [getNumericInput])

/-- Claim C6: every value returned by the confidence input operation is an
integer in [0, 100] (values are Nat, hence at least 0), and a return press on
a malformed or out-of-range buffer (empty, or value above 100) does not return
and does not fail: the loop shows the error message and simply keeps
processing input. -/
theorem c6_numeric_input_bounds :
    (∀ (buf : List (Fin 10)) (keys : List NumKey) (v : Nat),
      getNumericInput buf keys = NumInputOutcome.entered v → v ≤ 100) ∧
    (∀ (buf : List (Fin 10)) (keys : List NumKey),
      ¬(buf ≠ [] ∧ digitsValue buf ≤ 100) →
      getNumericInput buf (NumKey.enter :: keys) = getNumericInput buf keys) := by
  refine ⟨getNumericInput_le, ?_⟩
  intro buf keys hc
  simp [getNumericInput, hc]

/-- Witness for C6: typing 4, 2 and return enters 42, which the theorem bounds
by 100; and a return press on the empty buffer re-prompts. -/
theorem c6_witness :
    (42 : Nat) ≤ 100 ∧
    getNumericInput [] (NumKey.enter :: [NumKey.digit 5]) =
      getNumericInput [] [NumKey.digit 5] :=
  ⟨c6_numeric_input_bounds.1 [] [NumKey.digit 4, NumKey.digit 2, NumKey.enter] 42 rfl,
   c6_numeric_input_bounds.2 [] [NumKey.digit 5] (by simp)⟩

/-- The fixed question list of get_post_task_qs (s_hdt_functions.py lines
684-688): label, question text, and the two scale anchors. -/
def postTaskQuestions : List (String × String × String × String) :=
  [("TaskGeneral", "I find the task", "Very unpleasant", "Very pleasant"),
   ("Difficulty", "I find the task", "Very easy", "Very hard"),
   ("Breathless", "I feel breathless / have trouble breathing.", "Not at all", "Completely")]

/-- The rows written by get_post_task_qs (s_hdt_functions.py lines 752-755):
one row per question, in the column layout Staircase_name, Trial,
Current Delay, Button, Response_code, Confidence.  The numeric response
collected for question i is the script value response i (the slider position
at the confirming click). -/
def postTaskRows (response : Nat → Int) : List (List String) :=
  postTaskQuestions.enum.map (fun p =>
    ["Post_task_question", p.2.1, toString (response p.1), "NA", "NA", "NA"])

/-- Counterexample to C9 as stated: with response 42 to the first question,
the logged row holds the response in the Current Delay column (position 2) and
the question label in the Trial column; the delay field is not NA, only
Button, Response_code and Confidence are. -/
theorem c9_counterexample :
    (postTaskRows (fun _ => 42)).get? 0 =
      some ["Post_task_question", "TaskGeneral", "42", "NA", "NA", "NA"] ∧
    (((postTaskRows (fun _ => 42)).get? 0).map (fun row => row.get? 2)) =
      some (some "42") ∧
    some (some "42") ≠ some (some "NA") := by
  refine ⟨rfl, rfl, by decide⟩

/-- Amended Claim C9: for each post-session questionnaire question exactly one
record is logged; its staircase-name field is Post_task_question, its Trial
field holds the question label, its Current Delay field holds the numeric
response collected for the question, and its Button, Response_code and
Confidence fields are all NA. -/
theorem c9_amended_post_task_rows (response : Nat → Int) :
    postTaskRows response =
      [["Post_task_question", "TaskGeneral", toString (response 0), "NA", "NA", "NA"],
       ["Post_task_question", "Difficulty", toString (response 1), "NA", "NA", "NA"],
       ["Post_task_question", "Breathless", toString (response 2), "NA", "NA", "NA"]] :=
  rfl

/-- Python's str.isalpha for a single character code, restricted to ASCII
letters (the suffixes the naming scheme itself produces are a..z). -/
def isAsciiAlpha (c : Nat) : Bool :=
  decide ((65 ≤ c ∧ c ≤ 90) ∨ (97 ≤ c ∧ c ≤ 122))

/-- Python's str.lower for a single character code, ASCII range. -/
def toLowerCode (c : Nat) : Nat :=
  if 65 ≤ c ∧ c ≤ 90 then c + 32 else c

/-- Character codes of the extension ".tsv".  File names are modelled as lists
of character codes. -/
def tsvExt : List Nat := [46, 116, 115, 118]

/-- Character code of the underscore. -/
def underscore : Nat := 95

/-- Python str.startswith on code lists. -/
def pyStartsWith (pre s : List Nat) : Bool :=
  decide (s.take pre.length = pre)

/-- Python str.endswith on code lists. -/
def pyEndsWith (suf s : List Nat) : Bool :=
  decide (s.drop (s.length - suf.length) = suf)

/-- The index a single directory entry contributes in run_s_hdt's suffix scan
(s_hdt.py lines 106-112): skip the base file itself; for a file of the form
base_<one alphabetic character>.tsv take ord(suffix.lower()) - ord(a); ignore
everything else.  The slice file[len(base_name)+1:-4] is drop then take. -/
def suffixIndexOf (base f : List Nat) : Option Nat :=
  if f = base ++ tsvExt then none
  else if pyStartsWith (base ++ [underscore]) f && pyEndsWith tsvExt f then
    match (f.drop (base.length + 1)).take (f.length - 4 - (base.length + 1)) with
    | [c] => if isAsciiAlpha c then some (toLowerCode c - 97) else none
    | _ => none
  else none

/-- The collected suffix indices of run_s_hdt (s_hdt.py lines 102-112): scan
the files starting with the base name and collect each single-letter suffix
index. -/
def suffixIndices (listing : List (List Nat)) (base : List Nat) : List Nat :=
  (listing.filter (fun f => pyStartsWith base f)).filterMap (suffixIndexOf base)

/-- Python's max over the collected indices (0 default; the code only calls it
on a nonempty list). -/
def listMax (l : List Nat) : Nat := l.foldr max 0

/-- The log-file naming of run_s_hdt (s_hdt.py lines 100-125): when the base
file base.tsv already exists, append an underscore and chr(ord(a) + i) where i
is 0 if no single-letter-suffixed file exists and the maximal existing index
plus one otherwise; when the base file does not exist, use it directly. -/
def chooseCsvName (listing : List (List Nat)) (base : List Nat) : List Nat :=
  if base ++ tsvExt ∈ listing then
    base ++ [underscore] ++
      [97 + (if suffixIndices listing base = [] then 0
             else listMax (suffixIndices listing base) + 1)] ++ tsvExt
  else base ++ tsvExt

/-- Every member of a list is at most its max. -/
lemma le_listMax {l : List Nat} {a : Nat} (h : a ∈ l) : a ≤ listMax l := by
  induction l with
  | nil => cases h
  | cons x xs ih =>
    rcases List.mem_cons.mp h with h | h
    · subst h
      exact le_max_left _ _
    · exact le_trans (ih h) (le_max_right _ _)

/-- A listed file of the single-letter-suffix form contributes its letter
index to the collected indices. -/
lemma mem_suffixIndices (listing : List (List Nat)) (base : List Nat) (c : Nat)
    (halpha : isAsciiAlpha c = true)
    (hmem : base ++ [underscore] ++ [c] ++ tsvExt ∈ listing) :
    toLowerCode c - 97 ∈ suffixIndices listing base := by
  unfold suffixIndices
  rw [List.mem_filterMap]
  refine ⟨base ++ [underscore] ++ [c] ++ tsvExt, ?_, ?_⟩
  · rw [List.mem_filter]
    refine ⟨hmem, ?_⟩
    unfold pyStartsWith
    rw [decide_eq_true_eq, List.append_assoc, List.append_assoc]
    exact List.take_left base _
  · unfold suffixIndexOf
    rw [if_neg, if_pos]
    · have hdrop : (base ++ [underscore] ++ [c] ++ tsvExt).drop (base.length + 1) =
          [c] ++ tsvExt := by
        rw [List.append_assoc (base ++ [underscore])]
        rw [show base.length + 1 = (base ++ [underscore]).length by simp]
        exact List.drop_left _ _
      have hlen : (base ++ [underscore] ++ [c] ++ tsvExt).length = base.length + 6 := by
        simp [tsvExt]
      rw [hdrop, hlen]
      rw [show base.length + 6 - 4 - (base.length + 1) = 1 by omega]
      simp only [List.singleton_append, List.take_succ_cons, List.take_zero]
      rw [if_pos halpha]
    · rw [Bool.and_eq_true]
      constructor
      · unfold pyStartsWith
        rw [decide_eq_true_eq]
        rw [List.append_assoc (base ++ [underscore])]
        rw [show (base ++ [underscore]).length = base.length + 1 by simp]
        rw [show ((base ++ [underscore]) ++ ([c] ++ tsvExt)).take (base.length + 1) =
            ((base ++ [underscore]) ++ ([c] ++ tsvExt)).take (base ++ [underscore]).length
            by simp]
        exact List.take_left _ _
      · unfold pyEndsWith
        rw [decide_eq_true_eq]
        rw [show (base ++ [underscore] ++ [c] ++ tsvExt).length - tsvExt.length =
            (base ++ [underscore] ++ [c]).length by simp [tsvExt]]
        exact List.drop_left _ _
    · intro heq
      have hl := congrArg List.length heq
      simp [tsvExt] at hl

/-- Claim C7: when the base file sub-<id>_s_hdt.tsv already exists in the
directory, the chosen name appends an underscore and the single character
chr(97 + i) with i computed as 0 when no single-letter suffix exists and as
the maximal existing letter index plus one otherwise; the chosen name differs
from the base name and from every listed single-letter-suffixed file. -/
theorem c7_filename_suffix_fresh (listing : List (List Nat)) (base : List Nat)
    (hbase : base ++ tsvExt ∈ listing) :
    chooseCsvName listing base =
      base ++ [underscore] ++
        [97 + (if suffixIndices listing base = [] then 0
               else listMax (suffixIndices listing base) + 1)] ++ tsvExt ∧
    chooseCsvName listing base ≠ base ++ tsvExt ∧
    (∀ c : Nat, isAsciiAlpha c = true →
      base ++ [underscore] ++ [c] ++ tsvExt ∈ listing →
      chooseCsvName listing base ≠ base ++ [underscore] ++ [c] ++ tsvExt) := by
  have hname : chooseCsvName listing base =
      base ++ [underscore] ++
        [97 + (if suffixIndices listing base = [] then 0
               else listMax (suffixIndices listing base) + 1)] ++ tsvExt := by
    unfold chooseCsvName
    rw [if_pos hbase]
  refine ⟨hname, ?_, ?_⟩
  · rw [hname]
    intro heq
    have hl := congrArg List.length heq
    simp [tsvExt] at hl
  · intro c halpha hmem heq
    rw [hname] at heq
    simp only [List.append_assoc, List.cons_append, List.nil_append] at heq
    have heq2 := List.append_cancel_left heq
    simp only [List.cons.injEq] at heq2
    have hc : 97 + (if suffixIndices listing base = [] then 0
        else listMax (suffixIndices listing base) + 1) = c := heq2.2.1
    have hidx := mem_suffixIndices listing base c halpha hmem
    have hne : suffixIndices listing base ≠ [] := List.ne_nil_of_mem hidx
    rw [if_neg hne] at hc
    have hle := le_listMax hidx
    have hlower : toLowerCode c = c := by
      unfold toLowerCode
      rw [if_neg]
      omega
    rw [hlower] at hle
    omega

/-- Witness for C7: a directory containing only the base file gets suffix a. -/
theorem c7_witness :
    chooseCsvName [[115, 46, 116, 115, 118]] [115] =
      [115] ++ [underscore] ++
        [97 + (if suffixIndices [[115, 46, 116, 115, 118]] [115] = [] then 0
               else listMax (suffixIndices [[115, 46, 116, 115, 118]] [115]) + 1)] ++
        tsvExt ∧
    chooseCsvName [[115, 46, 116, 115, 118]] [115] ≠ [115] ++ tsvExt ∧
    (∀ c : Nat, isAsciiAlpha c = true →
      [115] ++ [underscore] ++ [c] ++ tsvExt ∈ [[115, 46, 116, 115, 118]] →
      chooseCsvName [[115, 46, 116, 115, 118]] [115] ≠
        [115] ++ [underscore] ++ [c] ++ tsvExt) :=
  c7_filename_suffix_fresh [[115, 46, 116, 115, 118]] [115] (by decide)

/-- The training loop of run_s_hdt (s_hdt.py lines 255-274): for each preset
delay, run a set-delay trial, collect a confidence rating and log one Training
record; then, only when the loop index i is positive (the code guards
ask_run_another with i greater than 0), ask whether to run another trial or
stop, and break out of the loop on stop.  Returns the logged records together
with the list of loop indices at which the continue-or-stop question was
asked. -/
def runTraining (resp : Nat → Fin 3) (confidence : Nat → Nat) (stop : Nat → Bool) :
    Nat → List Int → List TrialRecord × List Nat
  | _, [] => ([], [])
  | i, delay :: rest =>
    let response := codeResponse (resp i)
    let record : TrialRecord :=
      { staircaseName := "Training"
        trialIndex := i + 1
        delay := delay
        button := response.1
        responseCode := response.2
        confidence := confidence i }
    if 0 < i then
      if stop i then ([record], [i])
      else
        let next := runTraining resp confidence stop (i + 1) rest
        (record :: next.1, i :: next.2)
    else
      let next := runTraining resp confidence stop (i + 1) rest
      (record :: next.1, next.2)

/-- Counterexample to C8 as stated: with a participant who would choose stop
at every opportunity, the continue-or-stop question is first asked only after
the second training trial (loop index 1), never after the first (index 0), so
two trials are administered; a decision offered after the first trial would
have allowed stopping after one. -/
theorem c8_counterexample :
    (runTraining (fun _ => 0) (fun _ => 50) (fun _ => true) 0
        (List.replicate 20 100)).2 = [1] ∧
    0 ∉ (runTraining (fun _ => 0) (fun _ => 50) (fun _ => true) 0
        (List.replicate 20 100)).2 ∧
    (runTraining (fun _ => 0) (fun _ => 50) (fun _ => true) 0
        (List.replicate 20 100)).1.length = 2 := by
  decide

/-- Soundness of the ask indices: every asked index is positive (never the
first trial) and belongs to an administered trial. -/
lemma runTraining_asks_sound (resp : Nat → Fin 3) (confidence : Nat → Nat)
    (stop : Nat → Bool) :
    ∀ (delays : List Int) (i j : Nat),
      j ∈ (runTraining resp confidence stop i delays).2 →
      i ≤ j ∧ 0 < j ∧ j < i + (runTraining resp confidence stop i delays).1.length := by
  intro delays
  induction delays with
  | nil =>
    intro i j h
    exact absurd h (by simp [runTraining])
  | cons d rest ih =>
    intro i j h
    by_cases hi : 0 < i
    · by_cases hs : stop i = true
      · have hj : j = i := by simpa [runTraining, hi, hs] using h
        subst hj
        refine ⟨le_refl _, hi, ?_⟩
        simp [runTraining, hi, hs]
      · have h' : j = i ∨ j ∈ (runTraining resp confidence stop (i + 1) rest).2 := by
          simpa [runTraining, hi, hs] using h
        have hlen : (runTraining resp confidence stop i (d :: rest)).1.length =
            (runTraining resp confidence stop (i + 1) rest).1.length + 1 := by
          simp [runTraining, hi, hs]
        rcases h' with h' | h'
        · subst h'
          exact ⟨le_refl _, hi, by omega⟩
        · obtain ⟨h1, h2, h3⟩ := ih (i + 1) j h'
          exact ⟨by omega, h2, by omega⟩
    · have hi0 : i = 0 := by omega
      subst hi0
      have h' : j ∈ (runTraining resp confidence stop 1 rest).2 := by
        simpa [runTraining] using h
      have hlen : (runTraining resp confidence stop 0 (d :: rest)).1.length =
          (runTraining resp confidence stop 1 rest).1.length + 1 := by
        simp [runTraining]
      obtain ⟨h1, h2, h3⟩ := ih 1 j h'
      exact ⟨by omega, h2, by omega⟩

/-- Completeness of the ask indices: after every administered trial other than
the first, the continue-or-stop question is asked. -/
lemma runTraining_asks_complete (resp : Nat → Fin 3) (confidence : Nat → Nat)
    (stop : Nat → Bool) :
    ∀ (delays : List Int) (i j : Nat),
      i ≤ j → 0 < j → j < i + (runTraining resp confidence stop i delays).1.length →
      j ∈ (runTraining resp confidence stop i delays).2 := by
  intro delays
  induction delays with
  | nil =>
    intro i j h1 h2 h3
    simp [runTraining] at h3
    omega
  | cons d rest ih =>
    intro i j h1 h2 h3
    by_cases hi : 0 < i
    · by_cases hs : stop i = true
      · have hlen : (runTraining resp confidence stop i (d :: rest)).1.length = 1 := by
          simp [runTraining, hi, hs]
        have hj : j = i := by omega
        subst hj
        simp [runTraining, hi, hs]
      · have hlen : (runTraining resp confidence stop i (d :: rest)).1.length =
            (runTraining resp confidence stop (i + 1) rest).1.length + 1 := by
          simp [runTraining, hi, hs]
        have hmem : j ∈ (runTraining resp confidence stop i (d :: rest)).2 ↔
            j = i ∨ j ∈ (runTraining resp confidence stop (i + 1) rest).2 := by
          simp [runTraining, hi, hs]
        rw [hmem]
        by_cases hj : j = i
        · exact Or.inl hj
        · exact Or.inr (ih (i + 1) j (by omega) h2 (by omega))
    · have hi0 : i = 0 := by omega
      subst hi0
      have hlen : (runTraining resp confidence stop 0 (d :: rest)).1.length =
          (runTraining resp confidence stop 1 rest).1.length + 1 := by
        simp [runTraining]
      have hmem : j ∈ (runTraining resp confidence stop 0 (d :: rest)).2 ↔
          j ∈ (runTraining resp confidence stop 1 rest).2 := by
        simp [runTraining]
      rw [hmem]
      exact ih 1 j (by omega) h2 (by omega)

/-- Content of the logged training records: the j-th record belongs to the
j-th preset delay and carries the trial index, the response of that trial and
the collected confidence rating. -/
lemma runTraining_records (resp : Nat → Fin 3) (confidence : Nat → Nat)
    (stop : Nat → Bool) :
    ∀ (delays : List Int) (i j : Nat) (rec : TrialRecord),
      (runTraining resp confidence stop i delays).1.get? j = some rec →
      ∃ d, delays.get? j = some d ∧
        rec = { staircaseName := "Training"
                trialIndex := i + j + 1
                delay := d
                button := (codeResponse (resp (i + j))).1
                responseCode := (codeResponse (resp (i + j))).2
                confidence := confidence (i + j) } := by
  intro delays
  induction delays with
  | nil =>
    intro i j rec h
    exact absurd h (by simp [runTraining])
  | cons d rest ih =>
    intro i j rec h
    by_cases hi : 0 < i
    · by_cases hs : stop i = true
      · cases j with
        | zero =>
          have hrec : rec = TrialRecord.mk "Training" (i + 1) d
              (codeResponse (resp i)).1 (codeResponse (resp i)).2 (confidence i) := by
            have := h
            simp [runTraining, hi, hs] at this
            exact this.symm
          exact ⟨d, rfl, by simpa using hrec⟩
        | succ j' =>
          exact absurd h (by simp [runTraining, hi, hs])
      · cases j with
        | zero =>
          have hrec : rec = TrialRecord.mk "Training" (i + 1) d
              (codeResponse (resp i)).1 (codeResponse (resp i)).2 (confidence i) := by
            have := h
            simp [runTraining, hi, hs] at this
            exact this.symm
          exact ⟨d, rfl, by simpa using hrec⟩
        | succ j' =>
          have h' : (runTraining resp confidence stop (i + 1) rest).1.get? j' =
              some rec := by
            simpa [runTraining, hi, hs] using h
          obtain ⟨dd, hget, heq⟩ := ih (i + 1) j' rec h'
          refine ⟨dd, by simpa using hget, ?_⟩
          rw [heq]
          have harith : i + 1 + j' = i + (j' + 1) := by omega
          rw [harith]
    · have hi0 : i = 0 := by omega
      subst hi0
      cases j with
      | zero =>
        have hrec : rec = TrialRecord.mk "Training" 1 d
            (codeResponse (resp 0)).1 (codeResponse (resp 0)).2 (confidence 0) := by
          have := h
          simp [runTraining] at this
          exact this.symm
        exact ⟨d, rfl, by simpa using hrec⟩
      | succ j' =>
        have h' : (runTraining resp confidence stop 1 rest).1.get? j' = some rec := by
          simpa [runTraining] using h
        obtain ⟨dd, hget, heq⟩ := ih 1 j' rec h'
        refine ⟨dd, by simpa using hget, ?_⟩
        rw [heq]
        have harith : 1 + j' = 0 + (j' + 1) := by omega
        rw [harith]

/-- Amended Claim C8: during training, the continue-or-stop decision is
offered after each administered trial other than the first (exactly the
positive administered loop indices are asked), choosing stop exits the phase
immediately after the current trial's record with no further training trials,
and every administered training trial logs exactly one record carrying its
delay, its response and its collected confidence rating. -/
theorem c8_amended_training_flow :
    (∀ (resp : Nat → Fin 3) (confidence : Nat → Nat) (stop : Nat → Bool)
        (delays : List Int) (j : Nat),
      j ∈ (runTraining resp confidence stop 0 delays).2 →
      0 < j ∧ j < (runTraining resp confidence stop 0 delays).1.length) ∧
    (∀ (resp : Nat → Fin 3) (confidence : Nat → Nat) (stop : Nat → Bool)
        (delays : List Int) (j : Nat),
      0 < j → j < (runTraining resp confidence stop 0 delays).1.length →
      j ∈ (runTraining resp confidence stop 0 delays).2) ∧
    (∀ (resp : Nat → Fin 3) (confidence : Nat → Nat) (stop : Nat → Bool)
        (i : Nat) (d : Int) (rest : List Int),
      0 < i → stop i = true →
      runTraining resp confidence stop i (d :: rest) =
        ([{ staircaseName := "Training"
            trialIndex := i + 1
            delay := d
            button := (codeResponse (resp i)).1
            responseCode := (codeResponse (resp i)).2
            confidence := confidence i }], [i])) ∧
    (∀ (resp : Nat → Fin 3) (confidence : Nat → Nat) (stop : Nat → Bool)
        (delays : List Int) (j : Nat) (rec : TrialRecord),
      (runTraining resp confidence stop 0 delays).1.get? j = some rec →
      ∃ d, delays.get? j = some d ∧
        rec = { staircaseName := "Training"
                trialIndex := j + 1
                delay := d
                button := (codeResponse (resp j)).1
                responseCode := (codeResponse (resp j)).2
                confidence := confidence j }) := by
  refine ⟨?_, ?_, ?_, ?_⟩
  · intro resp confidence stop delays j h
    obtain ⟨-, h2, h3⟩ := runTraining_asks_sound resp confidence stop delays 0 j h
    exact ⟨h2, by omega⟩
  · intro resp confidence stop delays j h1 h2
    exact runTraining_asks_complete resp confidence stop delays 0 j (by omega) h1
      (by omega)
  · intro resp confidence stop i d rest hi hs
    simp [runTraining, hi, hs]
  · intro resp confidence stop delays j rec h
    obtain ⟨d, hget, heq⟩ := runTraining_records resp confidence stop delays 0 j rec h
    exact ⟨d, hget, by simpa using heq⟩

/-- Witness for the amended C8: with stop always chosen, the first ask (index
1) is positive and within the two administered trials, and a stop at index 1
ends the phase with exactly that trial's record. -/
theorem c8_witness :
    ((0 < 1 ∧ 1 < (runTraining (fun _ => (0 : Fin 3)) (fun _ => 50) (fun _ => true) 0
        [10, 20, 30]).1.length) ∧
      runTraining (fun _ => (0 : Fin 3)) (fun _ => 5) (fun _ => true) 1 [7] =
        ([{ staircaseName := "Training"
            trialIndex := 2
            delay := 7
            button := "before"
            responseCode := 0
            confidence := 5 }], [1])) :=
  ⟨c8_amended_training_flow.1 (fun _ => 0) (fun _ => 50) (fun _ => true) [10, 20, 30] 1
      (by decide),
   c8_amended_training_flow.2.2.1 (fun _ => 0) (fun _ => 5) (fun _ => true) 1 7 []
      (by decide) rfl⟩

end SHDT
